import Mathlib

/-!
Verification of the metadata reconciliation core of the claude-refactor-chain
repository (python package `claudestep`).

The development shallowly embeds the parts of the program the checked
properties speak about:

* task-description normalization and the SHA-256-based 8-character task hash
  (`TaskService.generate_task_hash`, domain function delegated to by
  `src/claudestep/services/core/task_service.py`);
* the legacy branch-name classifier of
  `scripts/claudestep/task_management.py` (`get_in_progress_task_indices`);
* the task reconciliation engine: `find_next_available_task`,
  `get_in_progress_tasks`, `detect_orphaned_prs` from
  `src/claudestep/services/core/task_service.py`;
* the reviewer capacity assignor
  (`src/claudestep/services/core/reviewer_service.py`);
* the hybrid metadata domain model (`Task`, `AIOperation`, `PullRequest`,
  `HybridProjectMetadata`) with its serialization, status derivation and
  completion percentage; the implementation module
  `src/claudestep/domain/models.py` is not part of the source tree,
  so these are modelled from the specification and pinned by the unit tests
  `tests/unit/domain/test_hybrid_metadata_models.py`;
* the optimistic-concurrency write-retry loop of the GitHub metadata store;
  `src/claudestep/infrastructure/metadata/github_metadata_store.py` is not in
  the source tree either, so the loop is modelled from the specification and
  the mocked call sequences of
  `tests/unit/infrastructure/metadata/test_github_metadata_store.py`.

Machine integers do not occur (Python integers are unbounded); timestamps are
modelled as abstract instants (`Nat`), costs and percentages as rationals.
-/

namespace ClaudeStep

/-! ## List helpers -/

/-- Dropping a whitespace-like prefix never lengthens a list. -/
theorem length_dropWhile_le (p : α → Bool) (l : List α) :
    (l.dropWhile p).length ≤ l.length := by
  induction l with
  | nil => simp
  | cons a t ih =>
    by_cases h : p a
    · simpa [List.dropWhile_cons, h] using Nat.le_succ_of_le ih
    · simp [List.dropWhile_cons, h]

/-- If every element of the first part satisfies the predicate, `takeWhile`
walks through it. -/
theorem takeWhile_append_all (p : α → Bool) (l₁ l₂ : List α)
    (h : ∀ a ∈ l₁, p a = true) :
    (l₁ ++ l₂).takeWhile p = l₁ ++ l₂.takeWhile p := by
  induction l₁ with
  | nil => simp
  | cons a t ih =>
    have ha : p a = true := h a (by simp)
    simp only [List.cons_append, List.takeWhile_cons, ha, if_true]
    rw [ih (fun b hb => h b (by simp [hb]))]

/-- If every element of the first part satisfies the predicate, `dropWhile`
jumps over it. -/
theorem dropWhile_append_all (p : α → Bool) (l₁ l₂ : List α)
    (h : ∀ a ∈ l₁, p a = true) :
    (l₁ ++ l₂).dropWhile p = l₂.dropWhile p := by
  induction l₁ with
  | nil => simp
  | cons a t ih =>
    have ha : p a = true := h a (by simp)
    simp only [List.cons_append, List.dropWhile_cons, ha, if_true]
    exact ih (fun b hb => h b (by simp [hb]))

/-- The first element surviving `dropWhile` fails the predicate. -/
theorem head_dropWhile_false (p : α → Bool) :
    ∀ (l : List α) {c : α} {cs : List α}, l.dropWhile p = c :: cs → p c = false := by
  intro l
  induction l with
  | nil => intro c cs h; simp at h
  | cons a t ih =>
    intro c cs h
    by_cases ha : p a
    · exact ih (by simpa [List.dropWhile_cons, ha] using h)
    · simp only [List.dropWhile_cons, ha, Bool.false_eq_true, if_false] at h
      obtain ⟨rfl, -⟩ := (List.cons.injEq _ _ _ _).mp h
      exact Bool.not_eq_true _ ▸ ha

/-! ## Whitespace normalization

`generate_task_hash` hashes the normalized description.  Modelled from the
spec: the description is trimmed and internal whitespace runs are collapsed,
which is Python `" ".join(description.split())`; `spec_content.py`, which
holds the implementation, is not in the source tree. -/

/-- ASCII whitespace as recognized by Python `str.split` / regex `\s`. -/
def pyIsSpace (c : Char) : Bool :=
  c = ' ' || c = '\t' || c = '\n' || c = '\x0b' || c = '\x0c' || c = '\r'

/-- Python `str.split()` on a character list, with explicit fuel (one unit
per word, so the list's length always suffices): maximal whitespace-free
runs. -/
def pySplitF : Nat → List Char → List (List Char)
  | 0, _ => []
  | fuel + 1, l =>
    match l.dropWhile pyIsSpace with
    | [] => []
    | c :: cs =>
      (c :: cs.takeWhile (fun x => !pyIsSpace x)) ::
        pySplitF fuel (cs.dropWhile (fun x => !pyIsSpace x))

/-- Python `str.split()` on a character list. -/
def pySplit (l : List Char) : List (List Char) := pySplitF l.length l

/-- Python `" ".join(ws)`. -/
def joinWords : List (List Char) → List Char
  | [] => []
  | [w] => w
  | w :: w₂ :: ws => w ++ ' ' :: joinWords (w₂ :: ws)

/-- Trim leading/trailing whitespace and collapse internal whitespace runs to
single spaces: Python `" ".join(s.split())`. -/
def normalize (s : String) : String :=
  String.mk (joinWords (pySplit s.toList))

/-! ## SHA-256

Executable SHA-256 over byte lists (bytes and 32-bit words are `Nat` with
explicit reduction mod `2^32`), as used by `generate_task_hash`
("Uses SHA-256 hash truncated to 8 characters", task_service.py docstring). -/

/-- Reduce to a 32-bit word. -/
def w32 (n : Nat) : Nat := n % 4294967296

/-- Rotate a 32-bit word right by `n` bits. -/
def rotr32 (n x : Nat) : Nat := w32 ((x >>> n) ||| (x <<< (32 - n)))

/-- SHA-256 big sigma 0. -/
def bsig0 (x : Nat) : Nat := (rotr32 2 x) ^^^ (rotr32 13 x) ^^^ (rotr32 22 x)

/-- SHA-256 big sigma 1. -/
def bsig1 (x : Nat) : Nat := (rotr32 6 x) ^^^ (rotr32 11 x) ^^^ (rotr32 25 x)

/-- SHA-256 small sigma 0. -/
def ssig0 (x : Nat) : Nat := (rotr32 7 x) ^^^ (rotr32 18 x) ^^^ (x >>> 3)

/-- SHA-256 small sigma 1. -/
def ssig1 (x : Nat) : Nat := (rotr32 17 x) ^^^ (rotr32 19 x) ^^^ (x >>> 10)

/-- SHA-256 choice function. -/
def chVal (e f g : Nat) : Nat := (e &&& f) ^^^ ((e ^^^ 4294967295) &&& g)

/-- SHA-256 majority function. -/
def majVal (a b c : Nat) : Nat := (a &&& b) ^^^ (a &&& c) ^^^ (b &&& c)

/-- The eight 32-bit words of a SHA-256 state. -/
structure Sha256State where
  a : Nat
  b : Nat
  c : Nat
  d : Nat
  e : Nat
  f : Nat
  g : Nat
  hh : Nat
deriving DecidableEq

/-- SHA-256 initial hash value. -/
def sha256init : Sha256State :=
  ⟨1779033703, 3144134277, 1013904242, 2773480762,
   1359893119, 2600822924, 528734635, 1541459225⟩

/-- SHA-256 round constants. -/
def sha256K : List Nat :=
  [1116352408, 1899447441, 3049323471, 3921009573, 961987163,
   1508970993, 2453635748, 2870763221, 3624381080, 310598401,
   607225278, 1426881987, 1925078388, 2162078206, 2614888103,
   3248222580, 3835390401, 4022224774, 264347078, 604807628,
   770255983, 1249150122, 1555081692, 1996064986, 2554220882,
   2821834349, 2952996808, 3210313671, 3336571891, 3584528711,
   113926993, 338241895, 666307205, 773529912, 1294757372,
   1396182291, 1695183700, 1986661051, 2177026350, 2456956037,
   2730485921, 2820302411, 3259730800, 3345764771, 3516065817,
   3600352804, 4094571909, 275423344, 430227734, 506948616,
   659060556, 883997877, 958139571, 1322822218, 1537002063,
   1747873779, 1955562222, 2024104815, 2227730452, 2361852424,
   2428436474, 2756734187, 3204031479, 3329325298]

/-- One SHA-256 compression round; `kw` is the round constant plus the
scheduled word, already combined. -/
def sha256round (st : Sha256State) (kw : Nat) : Sha256State :=
  let t1 := w32 (st.hh + bsig1 st.e + chVal st.e st.f st.g + kw)
  let t2 := w32 (bsig0 st.a + majVal st.a st.b st.c)
  ⟨w32 (t1 + t2), st.a, st.b, st.c, w32 (st.d + t1), st.e, st.f, st.g⟩

/-- Big-endian 32-bit words from a byte list (groups of four). -/
def toWords32 : List Nat → List Nat
  | b0 :: b1 :: b2 :: b3 :: rest =>
    (((b0 * 256 + b1) * 256 + b2) * 256 + b3) :: toWords32 rest
  | _ => []

/-- Extend the message schedule by `k` further words. -/
def wextend : List Nat → Nat → List Nat
  | w, 0 => w
  | w, k+1 =>
    let n := w.length
    let wi := w32 ((w.getD (n-16) 0) + ssig0 (w.getD (n-15) 0) +
                   (w.getD (n-7) 0) + ssig1 (w.getD (n-2) 0))
    wextend (w ++ [wi]) k

/-- Process one 64-byte chunk. -/
def sha256chunk (st : Sha256State) (chunk : List Nat) : Sha256State :=
  let w := wextend (toWords32 chunk) 48
  let kws := List.zipWith (fun k wi => w32 (k + wi)) sha256K w
  let fin := kws.foldl sha256round st
  ⟨w32 (st.a + fin.a), w32 (st.b + fin.b), w32 (st.c + fin.c),
   w32 (st.d + fin.d), w32 (st.e + fin.e), w32 (st.f + fin.f),
   w32 (st.g + fin.g), w32 (st.hh + fin.hh)⟩

/-- Split into chunks of 64 bytes, with explicit fuel (one unit per chunk,
so the list's length always suffices). -/
def chunks64F : Nat → List Nat → List (List Nat)
  | 0, _ => []
  | fuel + 1, l => if l = [] then [] else l.take 64 :: chunks64F fuel (l.drop 64)

/-- Split into chunks of 64 bytes. -/
def chunks64 (l : List Nat) : List (List Nat) := chunks64F l.length l

/-- The message length in bits as eight big-endian bytes. -/
def lenBytes64 (n : Nat) : List Nat :=
  [(n >>> 56) % 256, (n >>> 48) % 256, (n >>> 40) % 256, (n >>> 32) % 256,
   (n >>> 24) % 256, (n >>> 16) % 256, (n >>> 8) % 256, n % 256]

/-- SHA-256 padding: `0x80`, zeros to 56 mod 64, then the bit length. -/
def sha256pad (msg : List Nat) : List Nat :=
  let z := (64 - ((msg.length + 9) % 64)) % 64
  msg ++ 128 :: (List.replicate z 0 ++ lenBytes64 (8 * msg.length))

/-- A 32-bit word as four big-endian bytes. -/
def wordBytes (x : Nat) : List Nat :=
  [(x >>> 24) % 256, (x >>> 16) % 256, (x >>> 8) % 256, x % 256]

/-- SHA-256 digest (32 bytes) of a byte list. -/
def sha256bytes (msg : List Nat) : List Nat :=
  let st := (chunks64 (sha256pad msg)).foldl sha256chunk sha256init
  wordBytes st.a ++ wordBytes st.b ++ wordBytes st.c ++ wordBytes st.d ++
  wordBytes st.e ++ wordBytes st.f ++ wordBytes st.g ++ wordBytes st.hh

/-- The sixteen lowercase hexadecimal digits. -/
def hexDigits : List Char := "0123456789abcdef".toList

/-- Hex digit character of `n % 16`. -/
def hexChar (n : Nat) : Char := hexDigits.getD (n % 16) '0'

/-- Two hex characters of a byte. -/
def byteHexChars (b : Nat) : List Char := [hexChar (b / 16), hexChar b]

/-- Lowercase hex rendering of a byte list (Python `hexdigest`). -/
def hexOfBytes (bs : List Nat) : List Char := (bs.map byteHexChars).flatten

/-- UTF-8 encoding of one character. -/
def utf8Char (c : Char) : List Nat :=
  let n := c.toNat
  if n < 128 then [n]
  else if n < 2048 then [192 + n / 64, 128 + n % 64]
  else if n < 65536 then [224 + n / 4096, 128 + (n / 64) % 64, 128 + n % 64]
  else [240 + n / 262144, 128 + (n / 4096) % 64, 128 + (n / 64) % 64, 128 + n % 64]

/-- UTF-8 bytes of a string (Python `s.encode("utf-8")`). -/
def utf8Bytes (s : String) : List Nat := (s.toList.map utf8Char).flatten

/-- Stable task identifier: first 8 hex characters of the SHA-256 of the
normalized description.  Modelled from the spec and the
`TaskService.generate_task_hash` docstring ("Uses SHA-256 hash truncated to 8
characters", normalization collapses whitespace); the delegated-to domain
function in `spec_content.py` is not in the source tree. -/
def generate_task_hash (description : String) : String :=
  String.mk ((hexOfBytes (sha256bytes (utf8Bytes (normalize description)))).take 8)

/-! ## Legacy branch-name classification

`get_in_progress_task_indices` in `scripts/claudestep/task_management.py`
extracts a task index from a branch name by taking the part after the final
dash and feeding it to Python `int`. -/

/-- ASCII decimal digit test (Python `str.isdigit` on ASCII input). -/
def isAsciiDigit (c : Char) : Bool := '0' ≤ c && c ≤ '9'

/-- Numeric value of a decimal digit list. -/
def digitsToNat (l : List Char) : Nat :=
  l.foldl (fun acc c => acc * 10 + (c.toNat - 48)) 0

/-- Python `int` on a character list: an optional sign followed by one or
more decimal digits (no whitespace or underscore forms occur in branch
suffixes). `none` models `ValueError`. -/
def pyIntOfChars : List Char → Option Int
  | [] => none
  | c :: rest =>
    if c = '-' then
      if rest ≠ [] && rest.all isAsciiDigit then some (-(digitsToNat rest : Int)) else none
    else if c = '+' then
      if rest ≠ [] && rest.all isAsciiDigit then some (digitsToNat rest : Int) else none
    else if (c :: rest).all isAsciiDigit then some (digitsToNat (c :: rest) : Int)
    else none

/-- Python `int(s)` restricted to the forms arising from branch suffixes. -/
def pyIntOfString (s : String) : Option Int := pyIntOfChars s.toList

/-- Python `branch.rsplit("-", 1)` on a character list when it yields two
parts: the text before the final dash and the text after it; `none` when
there is no dash. -/
def lastDashSplitChars (l : List Char) : Option (List Char × List Char) :=
  match l.reverse.dropWhile (fun c => c ≠ '-') with
  | [] => none
  | _ :: pre => some (pre.reverse, (l.reverse.takeWhile (fun c => c ≠ '-')).reverse)

/-- Python `branch.rsplit("-", 1)` when it yields two parts. -/
def lastDashSplit (s : String) : Option (String × String) :=
  (lastDashSplitChars s.toList).map (fun p => (String.mk p.1, String.mk p.2))

/-- The branch-name fast path of `get_in_progress_task_indices`
(task_management.py lines 134-141): split at the final dash and parse the
suffix as a decimal integer; `some i` means the pull request is classified as
index-based with task index `i`. -/
def legacyTaskIndexOfBranch (branch : String) : Option Int :=
  match lastDashSplitChars branch.toList with
  | none => none
  | some (_, suf) => pyIntOfChars suf

/-- An 8-character lowercase-hexadecimal string, the syntactic shape of a
task hash embedded in a hash-based branch name. -/
def isHexHashString (s : String) : Bool :=
  s.length = 8 && s.toList.all (fun c => c ∈ hexDigits)

/-! ## Task reconciliation engine

Domain models as consumed by `TaskService`
(`src/claudestep/services/core/task_service.py`).  `SpecContent` tasks carry
the 1-based index, description, completion flag and content hash; the pull
requests returned by the PR service carry the optional task hash and task
index recovered from their branch names (`pr_service.py`, absent from the
source tree, supplies them; they are opaque inputs here). -/

/-- A checklist task as parsed from spec.md. -/
structure STask where
  index : Nat
  description : String
  is_completed : Bool
  task_hash : String
deriving DecidableEq

/-- The live checklist. -/
structure SpecContent where
  tasks : List STask
deriving DecidableEq

/-- An open pull request as seen by the task service: `task_hash` is set for
hash-based branches, `task_index` for index-based ones. -/
structure QPullRequest where
  number : Nat
  task_hash : Option String
  task_index : Option Nat
deriving DecidableEq

/-- Availability test of `SpecContent.get_next_available_task`: not completed,
index not claimed by an index-based PR, hash not claimed by a hash-based PR. -/
def availableTask (skip_indices : Finset Nat) (skip_hashes : Finset String)
    (t : STask) : Bool :=
  !t.is_completed && !(decide (t.index ∈ skip_indices)) &&
    !(decide (t.task_hash ∈ skip_hashes))

/-- Scan the checklist in order for the first available task.  Modelled from
the spec ("scans the live checklist in order and returns the first task whose
index is not in the index skip-set and whose content hash is not in the hash
skip-set"); `SpecContent.get_next_available_task` lives in the absent
`spec_content.py`. -/
def nextAvailableAux (skip_indices : Finset Nat) (skip_hashes : Finset String) :
    List STask → Option STask
  | [] => none
  | t :: ts =>
    if availableTask skip_indices skip_hashes t then some t
    else nextAvailableAux skip_indices skip_hashes ts

namespace TaskService

/-- Source `TaskService.find_next_available_task`: first unchecked task not in
`skip_indices` or `skip_hashes`, as `(task_index, task_text, task_hash)`. -/
def find_next_available_task (spec : SpecContent) (skip_indices : Finset Nat)
    (skip_hashes : Finset String) : Option (Nat × String × String) :=
  (nextAvailableAux skip_indices skip_hashes spec.tasks).map
    (fun t => (t.index, t.description, t.task_hash))

/-- Source `TaskService.get_in_progress_tasks`: the PR query either fails (modelled
as `Except.error`) or yields the open pull requests; identifiers are
collected into an index skip-set and a hash skip-set, and a failed query
degrades to empty skip-sets instead of propagating. -/
def get_in_progress_tasks (query : Except String (List QPullRequest)) :
    Finset Nat × Finset String :=
  match query with
  | .error _ => (∅, ∅)
  | .ok prs =>
    prs.foldl
      (fun acc pr =>
        match pr.task_hash with
        | some hsh => (acc.1, insert hsh acc.2)
        | none =>
          match pr.task_index with
          | some i => (insert i acc.1, acc.2)
          | none => acc)
      (∅, ∅)

/-- Source `TaskService.detect_orphaned_prs`: keep the open pull requests whose hash
(for hash-based PRs) matches no current task hash, or whose index (for
index-based PRs) is no current task index.  Python collects the valid hashes
and indices into sets; only membership is used, so lists model them. -/
def detect_orphaned_prs (open_prs : List QPullRequest) (spec : SpecContent) :
    List QPullRequest :=
  let valid_hashes := spec.tasks.map STask.task_hash
  let valid_indices := spec.tasks.map STask.index
  open_prs.filter (fun pr =>
    match pr.task_hash with
    | some hsh => decide (hsh ∉ valid_hashes)
    | none =>
      match pr.task_index with
      | some i => decide (i ∉ valid_indices)
      | none => false)

end TaskService

/-- The index skip-set `get_in_progress_tasks` builds from a PR list: indices
of index-based open PRs (those without a task hash). -/
def indexSkipSet (prs : List QPullRequest) : Finset Nat :=
  (prs.filterMap (fun pr =>
    match pr.task_hash with
    | some _ => none
    | none => pr.task_index)).toFinset

/-- The hash skip-set `get_in_progress_tasks` builds from a PR list: hashes
of hash-based open PRs. -/
def hashSkipSet (prs : List QPullRequest) : Finset String :=
  (prs.filterMap QPullRequest.task_hash).toFinset

/-! ## Legacy checklist scan (`scripts/claudestep/task_management.py`)

`find_next_available_task` there reads the spec file from disk; a missing
file raises `FileNotFoundError`.  The file system is an `Option` over the
file's lines. -/

/-- Failure mode of the legacy checklist scan. -/
inductive TaskFileError where
  | fileNotFound
deriving DecidableEq

/-- Strip leading and trailing ASCII whitespace (Python `str.strip`). -/
def stripChars (l : List Char) : List Char :=
  ((l.dropWhile pyIsSpace).reverse.dropWhile pyIsSpace).reverse

/-- Match `^\s*- \[ \] (.+)$` and return the stripped group: an unchecked
checklist line's task text. -/
def parseTaskLine (line : String) : Option String :=
  let l := line.toList.dropWhile pyIsSpace
  if l.take 6 = ['-', ' ', '[', ' ', ']', ' '] && l.drop 6 ≠ [] then
    some (String.mk (stripChars (l.drop 6)))
  else none

/-- Match `^\s*- \[[xX]\] `: a completed checklist line. -/
def isCompletedLine (line : String) : Bool :=
  let l := line.toList.dropWhile pyIsSpace
  l.take 6 = ['-', ' ', '[', 'x', ']', ' '] || l.take 6 = ['-', ' ', '[', 'X', ']', ' ']

/-- The line loop of the legacy `find_next_available_task`: unchecked tasks
are returned unless skipped, and both unchecked and checked tasks advance the
1-based task counter. -/
def legacyScan (skip_indices : Finset Nat) : List String → Nat → Option (Nat × String)
  | [], _ => none
  | line :: rest, idx =>
    match parseTaskLine line with
    | some txt =>
      if decide (idx ∉ skip_indices) then some (idx, txt)
      else legacyScan skip_indices rest (idx + 1)
    | none =>
      if isCompletedLine line then legacyScan skip_indices rest (idx + 1)
      else legacyScan skip_indices rest idx

/-- Legacy `find_next_available_task(plan_file, skip_indices)`: a missing
file fails loudly with `FileNotFoundError`; otherwise the checklist is
scanned for the first unchecked, unskipped task. -/
def find_next_available_task_file (file : Option (List String))
    (skip_indices : Finset Nat) : Except TaskFileError (Option (Nat × String)) :=
  match file with
  | none => .error .fileNotFound
  | some lines => .ok (legacyScan skip_indices lines 1)

/-! ## Reviewer capacity assignor
(`src/claudestep/services/core/reviewer_service.py`) -/

/-- A configured reviewer with their open-PR limit. -/
structure Reviewer where
  username : String
  max_open_prs : Nat
deriving DecidableEq

/-- Project configuration: the ordered reviewer list. -/
structure ProjectConfiguration where
  reviewers : List Reviewer
deriving DecidableEq

/-- The per-PR info record the service builds (`pr_number`, `task_index`,
`task_description`). -/
structure PRInfo where
  pr_number : Nat
  task_index : Option Nat
  task_description : String
deriving DecidableEq

/-- One entry of `ReviewerCapacityResult.reviewers_status`. -/
structure ReviewerStatusEntry where
  username : String
  max_prs : Nat
  open_count : Nat
  has_capacity : Bool
deriving DecidableEq

/-- Domain model `ReviewerCapacityResult` (pinned by
`tests/unit/domain/test_models.py`): per-reviewer status report, the selected
reviewer, and the `all_at_capacity` flag. -/
structure ReviewerCapacityResult where
  reviewers_status : List ReviewerStatusEntry
  selected_reviewer : Option String
  all_at_capacity : Bool
deriving DecidableEq

/-- The defaultdict of reviewer open-PR lists built by the first two loops of
`find_available_reviewer`: initialize every configured username to `[]`, then
append each reviewer's queried PRs under their username. -/
def buildReviewerPRs (reviewers : List Reviewer) (query : String → List PRInfo) :
    String → List PRInfo :=
  reviewers.foldl
    (fun acc r => Function.update acc r.username (acc r.username ++ query r.username))
    (fun _ => [])

/-- The status entry recorded for reviewer `r` given their accumulated PR
list. -/
def entryOf (prMap : String → List PRInfo) (r : Reviewer) : ReviewerStatusEntry :=
  ⟨r.username, r.max_open_prs, (prMap r.username).length,
    decide ((prMap r.username).length < r.max_open_prs)⟩

/-- The selection loop: walk the configured reviewers in order, record each
status entry, and keep the first reviewer with capacity. -/
def selectStep (prMap : String → List PRInfo)
    (acc : Option String × List ReviewerStatusEntry) (r : Reviewer) :
    Option String × List ReviewerStatusEntry :=
  let hc := decide ((prMap r.username).length < r.max_open_prs)
  let sel :=
    match acc.1 with
    | some u => some u
    | none => if hc then some r.username else none
  (sel, acc.2 ++ [entryOf prMap r])

namespace ReviewerService

/-- Source `ReviewerService.find_available_reviewer`: `query` stands for
`pr_service.get_reviewer_prs_for_project` (one call per configured reviewer).
Returns the selected username (or `none`) together with the capacity
report. -/
def find_available_reviewer (config : ProjectConfiguration)
    (query : String → List PRInfo) : Option String × ReviewerCapacityResult :=
  let prMap := buildReviewerPRs config.reviewers query
  let fin := config.reviewers.foldl (selectStep prMap) (none, [])
  (fin.1, ⟨fin.2, fin.1, fin.1.isNone⟩)

end ReviewerService

/-! ## Hybrid metadata domain model

Modelled from the spec (section 3 data model) and pinned by
`tests/unit/domain/test_hybrid_metadata_models.py`; the implementation module
`src/claudestep/domain/models.py` is absent from the source tree.  Timestamps
are abstract instants (`Nat`); their ISO-8601 wire text is an injective
encoding inverted on parse (`datetime.fromisoformat(s.replace("Z",
"+00:00"))` of `isoformat()` output), so the document keeps the instant
itself.  Costs and durations are rationals. -/

/-- Task status enumeration. -/
inductive TaskStatus where
  | pending
  | in_progress
  | completed
deriving DecidableEq

/-- Serialized form of a `TaskStatus` (its `.value`). -/
def TaskStatus.toStr : TaskStatus → String
  | .pending => "pending"
  | .in_progress => "in_progress"
  | .completed => "completed"

/-- Parse a status string; unknown strings fall back to `pending`, matching
`Task.from_dict`'s default. -/
def TaskStatus.ofStr (s : String) : TaskStatus :=
  if s = "completed" then .completed
  else if s = "in_progress" then .in_progress
  else .pending

/-- The `Task` domain model (named `MTask` because `Task` is taken by the
Lean core). -/
structure MTask where
  index : Nat
  description : String
  status : TaskStatus
deriving DecidableEq

/-- The `AIOperation` domain model. -/
structure AIOperation where
  type : String
  model : String
  cost_usd : Rat
  created_at : Nat
  workflow_run_id : Nat
  tokens_input : Nat
  tokens_output : Nat
  duration_seconds : Rat
deriving DecidableEq

/-- The `PullRequest` domain model of the hybrid metadata document. -/
structure MPullRequest where
  task_index : Nat
  pr_number : Nat
  branch_name : String
  reviewer : String
  pr_state : String
  created_at : Nat
  title : Option String
  ai_operations : List AIOperation
deriving DecidableEq

/-- The `ProjectMetadata` document root. -/
structure HybridProjectMetadata where
  schema_version : String
  project : String
  last_updated : Nat
  tasks : List MTask
  pull_requests : List MPullRequest
deriving DecidableEq

/-- Serialized task dictionary. -/
structure TaskDoc where
  index : Nat
  description : String
  status : String
deriving DecidableEq

/-- Serialized AI-operation dictionary. -/
structure AIOperationDoc where
  type : String
  model : String
  cost_usd : Rat
  created_at : Nat
  workflow_run_id : Nat
  tokens_input : Nat
  tokens_output : Nat
  duration_seconds : Rat
deriving DecidableEq

/-- Serialized pull-request dictionary. -/
structure PullRequestDoc where
  task_index : Nat
  pr_number : Nat
  branch_name : String
  reviewer : String
  pr_state : String
  created_at : Nat
  title : Option String
  ai_operations : List AIOperationDoc
deriving DecidableEq

/-- Serialized project document. -/
structure ProjectDoc where
  schema_version : String
  project : String
  last_updated : Nat
  tasks : List TaskDoc
  pull_requests : List PullRequestDoc
deriving DecidableEq

/-- Serialization `Task.to_dict`. -/
def MTask.to_dict (t : MTask) : TaskDoc :=
  ⟨t.index, t.description, t.status.toStr⟩

/-- Deserialization `Task.from_dict`. -/
def MTask.from_dict (d : TaskDoc) : MTask :=
  ⟨d.index, d.description, TaskStatus.ofStr d.status⟩

/-- Serialization `AIOperation.to_dict`. -/
def AIOperation.to_dict (op : AIOperation) : AIOperationDoc :=
  ⟨op.type, op.model, op.cost_usd, op.created_at, op.workflow_run_id,
   op.tokens_input, op.tokens_output, op.duration_seconds⟩

/-- Deserialization `AIOperation.from_dict`. -/
def AIOperation.from_dict (d : AIOperationDoc) : AIOperation :=
  ⟨d.type, d.model, d.cost_usd, d.created_at, d.workflow_run_id,
   d.tokens_input, d.tokens_output, d.duration_seconds⟩

/-- Serialization `PullRequest.to_dict`. -/
def MPullRequest.to_dict (pr : MPullRequest) : PullRequestDoc :=
  ⟨pr.task_index, pr.pr_number, pr.branch_name, pr.reviewer, pr.pr_state,
   pr.created_at, pr.title, pr.ai_operations.map AIOperation.to_dict⟩

/-- Deserialization `PullRequest.from_dict`. -/
def MPullRequest.from_dict (d : PullRequestDoc) : MPullRequest :=
  ⟨d.task_index, d.pr_number, d.branch_name, d.reviewer, d.pr_state,
   d.created_at, d.title, d.ai_operations.map AIOperation.from_dict⟩

namespace HybridProjectMetadata

/-- Serialization `HybridProjectMetadata.to_dict`. -/
def to_dict (m : HybridProjectMetadata) : ProjectDoc :=
  ⟨m.schema_version, m.project, m.last_updated,
   m.tasks.map MTask.to_dict, m.pull_requests.map MPullRequest.to_dict⟩

/-- Deserialization `HybridProjectMetadata.from_dict`. -/
def from_dict (d : ProjectDoc) : HybridProjectMetadata :=
  ⟨d.schema_version, d.project, d.last_updated,
   d.tasks.map MTask.from_dict, d.pull_requests.map MPullRequest.from_dict⟩

/-- Constructor `HybridProjectMetadata.create_empty` (schema 2.0, no tasks, no PRs; the
creation instant is abstract). -/
def create_empty (name : String) : HybridProjectMetadata :=
  ⟨"2.0", name, 0, [], []⟩

end HybridProjectMetadata

/-- The most recently created pull request of a list: maximal `created_at`,
first among equals (Python `max` with a key keeps the earliest maximal
element). -/
def latestPR : List MPullRequest → Option MPullRequest
  | [] => none
  | p :: ps =>
    some (ps.foldl (fun best q => if best.created_at < q.created_at then q else best) p)

/-- Map a pull-request state to the task status it induces: `open` and
`closed` (not merged) mean the task is still outstanding, `merged` completes
it.  Modelled from the spec; `pr_state` ranges over
`open`/`closed`/`merged`. -/
def statusForState (s : String) : TaskStatus :=
  if s = "merged" then .completed
  else if s = "open" then .in_progress
  else if s = "closed" then .in_progress
  else .pending

/-- Derive one task's status from the project's pull requests: the most
recently created PR whose `task_index` matches decides; no PR means
`pending`. -/
def deriveTaskStatus (pull_requests : List MPullRequest) (t : MTask) : MTask :=
  match latestPR (pull_requests.filter (fun p => p.task_index == t.index)) with
  | none => { t with status := .pending }
  | some p => { t with status := statusForState p.pr_state }

/-- Source `HybridProjectMetadata.sync_task_statuses`: recompute every task's status
from the pull-request list. -/
def HybridProjectMetadata.sync_task_statuses (m : HybridProjectMetadata) :
    HybridProjectMetadata :=
  { m with tasks := m.tasks.map (deriveTaskStatus m.pull_requests) }

/-- Source `HybridProjectMetadata.get_completion_percentage`: `0.0` for an empty
task list, otherwise `completed / total * 100`. -/
def HybridProjectMetadata.get_completion_percentage (m : HybridProjectMetadata) : Rat :=
  if m.tasks.isEmpty then 0
  else ((m.tasks.filter (fun t => t.status == TaskStatus.completed)).length : Rat) /
    (m.tasks.length : Rat) * 100

/-! ## Metadata store write retry

`GitHubMetadataStore._write_file` (module absent from the source tree;
modelled from the spec's conflict-retry algorithm and the mocked call
sequence of `test_write_file_retries_on_conflict`): a conditional `PUT`
succeeds when the supplied version token matches the file's current revision
(or when the file is absent and no token is supplied); on a conflict the
store re-reads the file for its current token and retries with the caller's
document, up to `max_retries` further attempts; exhausted retries surface a
conflict error.

The remote is an adversary schedule `env`: `env k` is the file's state (its
content and revision token, or `none` when absent) at the store's `k`-th
attempt, so a concurrent writer may move the file between attempts. -/

/-- Outcome of a write. -/
inductive WriteResult where
  | written (content : String)
  | conflictError
deriving DecidableEq

/-- Does a conditional `PUT` succeed against remote state `st` with version
token `tok`?  A token must match the current revision; a token-less create
requires the file to be absent. -/
def putOk : Option (String × Nat) → Option Nat → Bool
  | none, none => true
  | some (_, s), some t => decide (t = s)
  | _, _ => false

/-- The version token the store carries into attempt `j` (counted from the
first attempt with caller-supplied token `tok0`): after a conflict at attempt
`j - 1`, the token freshly re-read from the remote. -/
def tokSeq (env : Nat → Option (String × Nat)) (tok0 : Option Nat) : Nat → Option Nat
  | 0 => tok0
  | j + 1 => (env j).map Prod.snd

namespace GitHubMetadataStore

/-- The retry loop of `_write_file`: attempt a conditional `PUT`; on conflict
re-read the current token and retry with the same caller document, while
attempts remain. -/
def write_file_attempts (env : Nat → Option (String × Nat)) (content : String) :
    Nat → Option Nat → Nat → WriteResult
  | _, _, 0 => .conflictError
  | k, tok, fuel + 1 =>
    if putOk (env k) tok then .written content
    else write_file_attempts env content (k + 1) ((env k).map Prod.snd) fuel

/-- Source `GitHubMetadataStore._write_file(project, content, sha)`: the caller's
document is written with the supplied token (or as a create), with up to
`max_retries` conflict retries. -/
def write_file (env : Nat → Option (String × Nat)) (content : String)
    (sha : Option Nat) (max_retries : Nat) : WriteResult :=
  write_file_attempts env content 0 sha (max_retries + 1)

/-- The write-retry loop as the specification sentence of claim C1 reads it:
on a conflict the store would re-read the file and submit a caller-supplied
recompute step applied to the freshly-read document instead of the original
document.  Stated only to compare against `write_file`; the store's API
(`_write_file(project, content_dict)` in the unit tests) has no recompute
parameter. -/
def write_file_attempts_recompute (env : Nat → Option (String × Nat))
    (recompute : String → String) : String → Nat → Option Nat → Nat → WriteResult
  | _, _, _, 0 => .conflictError
  | content, k, tok, fuel + 1 =>
    if putOk (env k) tok then .written content
    else
      write_file_attempts_recompute env recompute
        (recompute (((env k).map Prod.fst).getD "")) (k + 1)
        ((env k).map Prod.snd) fuel

/-- Claimed variant of `write_file`, for the C1 comparison. -/
def write_file_recompute (env : Nat → Option (String × Nat))
    (recompute : String → String) (content : String) (sha : Option Nat)
    (max_retries : Nat) : WriteResult :=
  write_file_attempts_recompute env recompute content 0 sha (max_retries + 1)

end GitHubMetadataStore

/-! ## Serialization round trip (C7) -/

/-- Mapping a list with a function and then its pointwise inverse is the
identity. -/
theorem map_inverse {f : α → β} {g : β → α} (h : ∀ x, g (f x) = x) (l : List α) :
    (l.map f).map g = l := by
  induction l with
  | nil => rfl
  | cons a t ih => simp [h, ih]

/-- Status strings round-trip through parse. -/
theorem TaskStatus.ofStr_toStr (s : TaskStatus) : TaskStatus.ofStr s.toStr = s := by
  cases s <;> simp [TaskStatus.toStr, TaskStatus.ofStr]

/-- Tasks round-trip through their dictionary form. -/
theorem task_from_dict_to_dict (t : MTask) : MTask.from_dict t.to_dict = t := by
  cases t
  simp [MTask.to_dict, MTask.from_dict, TaskStatus.ofStr_toStr]

/-- AI operations round-trip through their dictionary form. -/
theorem aiop_from_dict_to_dict (op : AIOperation) :
    AIOperation.from_dict op.to_dict = op := by
  cases op
  rfl

/-- Pull requests round-trip through their dictionary form. -/
theorem pr_from_dict_to_dict (pr : MPullRequest) :
    MPullRequest.from_dict pr.to_dict = pr := by
  cases pr
  simp [MPullRequest.to_dict, MPullRequest.from_dict,
    map_inverse aiop_from_dict_to_dict]

/-- C7: for every `ProjectMetadata` value `m` — including one with an empty
task list and one whose `pull_requests` reference task indices not present in
`tasks` — deserializing the serialized document yields a value equal to `m`:
`from_dict (to_dict m) = m`. -/
theorem C7_project_metadata_round_trip (m : HybridProjectMetadata) :
    HybridProjectMetadata.from_dict (HybridProjectMetadata.to_dict m) = m := by
  cases m
  simp [HybridProjectMetadata.to_dict, HybridProjectMetadata.from_dict,
    map_inverse task_from_dict_to_dict, map_inverse pr_from_dict_to_dict]

/-! ## Completion percentage (C10) -/

/-- C10: `get_completion_percentage` is total, equals 100 times the ratio of
completed tasks to total tasks (rational division, with `x / 0 = 0` making
the formula agree with the guarded branch), and returns 0 on an empty task
list, so the zero-task edge case divides by nothing. -/
theorem C10_completion_percentage_total (m : HybridProjectMetadata) :
    m.get_completion_percentage =
      100 * ((m.tasks.filter (fun t => t.status == TaskStatus.completed)).length : Rat) /
        (m.tasks.length : Rat) ∧
    (m.tasks = [] → m.get_completion_percentage = 0) := by
  constructor
  · by_cases h : m.tasks.isEmpty
    · rw [List.isEmpty_iff] at h
      simp [HybridProjectMetadata.get_completion_percentage, h]
    · rw [HybridProjectMetadata.get_completion_percentage, if_neg h]
      rw [div_mul_eq_mul_div, mul_comm]
  · intro h
    simp [HybridProjectMetadata.get_completion_percentage, h]

/-- Witness for C10: the empty project reports 0 percent, and a project with
two completed tasks out of four reports 50 percent. -/
theorem C10_completion_percentage_total_witness :
    (HybridProjectMetadata.create_empty "demo").get_completion_percentage = 0 ∧
    (HybridProjectMetadata.mk "2.0" "demo" 0
      [⟨1, "T1", .completed⟩, ⟨2, "T2", .completed⟩,
       ⟨3, "T3", .in_progress⟩, ⟨4, "T4", .pending⟩] []).get_completion_percentage = 50 := by
  constructor
  · exact (C10_completion_percentage_total _).2 rfl
  · rw [(C10_completion_percentage_total _).1]
    simp +decide only [List.filter_cons, List.filter_nil]
    norm_num

/-! ## Degradation on PR-query failure (C9) -/

/-- The skip-set accumulation of `get_in_progress_tasks` adds exactly the
index and hash skip-sets to its accumulator. -/
theorem gip_foldl_spec (prs : List QPullRequest) :
    ∀ acc : Finset Nat × Finset String,
      prs.foldl
        (fun acc pr =>
          match pr.task_hash with
          | some hsh => (acc.1, insert hsh acc.2)
          | none =>
            match pr.task_index with
            | some i => (insert i acc.1, acc.2)
            | none => acc)
        acc = (acc.1 ∪ indexSkipSet prs, acc.2 ∪ hashSkipSet prs) := by
  induction prs with
  | nil => intro acc; simp [indexSkipSet, hashSkipSet]
  | cons pr rest ih =>
    intro acc
    rw [List.foldl_cons]
    cases hh : pr.task_hash with
    | some hsh =>
      simp only [hh]
      rw [ih]
      simp [indexSkipSet, hashSkipSet, List.filterMap_cons, hh,
        Finset.insert_union, Finset.union_insert]
    | none =>
      cases hi : pr.task_index with
      | some i =>
        simp only [hh, hi]
        rw [ih]
        simp [indexSkipSet, hashSkipSet, List.filterMap_cons, hh, hi,
          Finset.insert_union, Finset.union_insert]
      | none =>
        simp only [hh, hi]
        rw [ih]
        simp [indexSkipSet, hashSkipSet, List.filterMap_cons, hh, hi]

/-- C9: a failed pull-request query makes `get_in_progress_tasks` return
empty skip-sets (every task treated as available) instead of propagating the
failure, while a successful query yields exactly the index and hash
skip-sets; an unreadable checklist file makes the legacy
`find_next_available_task` fail loudly with a file-not-found error, and a
readable one never fails. -/
theorem C9_query_failure_degrades (e : String) (skips : Finset Nat)
    (prs : List QPullRequest) :
    TaskService.get_in_progress_tasks (Except.error e) = (∅, ∅) ∧
    TaskService.get_in_progress_tasks (Except.ok prs) =
      (indexSkipSet prs, hashSkipSet prs) ∧
    find_next_available_task_file none skips = Except.error TaskFileError.fileNotFound ∧
    ∀ lines : List String, ∃ r,
      find_next_available_task_file (some lines) skips = Except.ok r := by
  refine ⟨rfl, ?_, rfl, fun lines => ⟨_, rfl⟩⟩
  rw [TaskService.get_in_progress_tasks, gip_foldl_spec]
  simp

/-! ## Orphaned pull-request detection (C6) -/

/-- C6: `detect_orphaned_prs` reports exactly the orphans — a hash-based pull
request is reported iff its hash matches no current task's hash, an
index-based one iff its index is no current task's index, and a pull request
carrying neither identifier is never reported. -/
theorem C6_detect_orphaned_prs_exact (open_prs : List QPullRequest)
    (spec : SpecContent) (pr : QPullRequest) (hmem : pr ∈ open_prs) :
    (∀ hsh, pr.task_hash = some hsh →
      (pr ∈ TaskService.detect_orphaned_prs open_prs spec ↔
        hsh ∉ spec.tasks.map STask.task_hash)) ∧
    (pr.task_hash = none → ∀ i, pr.task_index = some i →
      (pr ∈ TaskService.detect_orphaned_prs open_prs spec ↔
        i ∉ spec.tasks.map STask.index)) ∧
    (pr.task_hash = none → pr.task_index = none →
      pr ∉ TaskService.detect_orphaned_prs open_prs spec) := by
  refine ⟨?_, ?_, ?_⟩
  · intro hsh hh
    rw [TaskService.detect_orphaned_prs, List.mem_filter]
    simp [hmem, hh]
  · intro hh i hi
    rw [TaskService.detect_orphaned_prs, List.mem_filter]
    simp [hmem, hh, hi]
  · intro hh hi
    rw [TaskService.detect_orphaned_prs, List.mem_filter]
    simp [hh, hi]

/-- Witness for C6: with one current task (index 1, hash "aaaa1111"), a
hash-based pull request whose hash "deadbeef" matches no task is reported as
orphaned even though a valid index-based pull request for position 1 exists,
and that index-based pull request is not reported. -/
theorem C6_detect_orphaned_prs_exact_witness :
    (⟨10, some "deadbeef", none⟩ : QPullRequest) ∈
      TaskService.detect_orphaned_prs
        [⟨10, some "deadbeef", none⟩, ⟨11, none, some 1⟩]
        ⟨[⟨1, "Task 1", false, "aaaa1111"⟩]⟩ ∧
    (⟨11, none, some 1⟩ : QPullRequest) ∉
      TaskService.detect_orphaned_prs
        [⟨10, some "deadbeef", none⟩, ⟨11, none, some 1⟩]
        ⟨[⟨1, "Task 1", false, "aaaa1111"⟩]⟩ := by
  constructor
  · exact ((C6_detect_orphaned_prs_exact _ _ _ (by decide)).1 "deadbeef" rfl).mpr
      (by decide)
  · intro hmem
    exact absurd (((C6_detect_orphaned_prs_exact _ _ _ (by decide)).2.1 rfl 1
      rfl).mp hmem) (by decide)

/-! ## Next available task (C3) -/

/-- The scan of `get_next_available_task` is the first match of the
availability test, in checklist order. -/
theorem nextAvailableAux_eq_find (skip_indices : Finset Nat)
    (skip_hashes : Finset String) (ts : List STask) :
    nextAvailableAux skip_indices skip_hashes ts =
      ts.find? (availableTask skip_indices skip_hashes) := by
  induction ts with
  | nil => rfl
  | cons t rest ih =>
    by_cases h : availableTask skip_indices skip_hashes t
    · rw [nextAvailableAux, if_pos h, List.find?_cons_of_pos _ h]
    · rw [nextAvailableAux, if_neg h, ih,
        List.find?_cons_of_neg _ (by simpa using h)]

/-- C3: `find_next_available_task` returns, as an (index, text, hash) triple,
the first not-yet-completed task in checklist order whose index is not in the
index skip-set and whose content hash is not in the hash skip-set, and
returns `none` when every task is completed or skipped. -/
theorem C3_find_next_available_task_first (spec : SpecContent)
    (skip_indices : Finset Nat) (skip_hashes : Finset String) :
    TaskService.find_next_available_task spec skip_indices skip_hashes =
      (spec.tasks.find? (availableTask skip_indices skip_hashes)).map
        (fun t => (t.index, t.description, t.task_hash)) ∧
    ((∀ t ∈ spec.tasks, availableTask skip_indices skip_hashes t = false) →
      TaskService.find_next_available_task spec skip_indices skip_hashes = none) := by
  constructor
  · rw [TaskService.find_next_available_task, nextAvailableAux_eq_find]
  · intro h
    rw [TaskService.find_next_available_task, nextAvailableAux_eq_find,
      List.find?_eq_none.mpr fun t ht => by simp [h t ht]]
    rfl

/-- Witness for C3, the end-to-end scenario of the spec: with three tasks and
the hash skip-set containing task 2's hash (from an open hash-based pull
request), task 1 is returned; and when every task is skipped or completed,
no task is returned. -/
theorem C3_find_next_available_task_first_witness :
    TaskService.find_next_available_task
      ⟨[⟨1, "Task 1", false, "1111aaaa"⟩, ⟨2, "Task 2", false, "2222bbbb"⟩,
        ⟨3, "Task 3", false, "3333cccc"⟩]⟩ ∅ {"2222bbbb"} =
      some (1, "Task 1", "1111aaaa") ∧
    TaskService.find_next_available_task
      ⟨[⟨1, "Task 1", true, "1111aaaa"⟩, ⟨2, "Task 2", false, "2222bbbb"⟩]⟩
      {2} ∅ = none := by
  constructor
  · rw [(C3_find_next_available_task_first _ _ _).1]
    decide
  · exact (C3_find_next_available_task_first _ _ _).2 (by decide)

/-! ## Reviewer capacity (C5) -/

/-- Folding the PR-dict builder over reviewers not mentioning `u` leaves the
entry of `u` unchanged. -/
theorem buildReviewerPRs_foldl_not_mem (query : String → List PRInfo)
    (rs : List Reviewer) (u : String) (hu : u ∉ rs.map Reviewer.username) :
    ∀ f : String → List PRInfo,
      (rs.foldl
        (fun (acc : String → List PRInfo) (r : Reviewer) =>
          Function.update acc r.username (acc r.username ++ query r.username))
        f) u = f u := by
  induction rs with
  | nil => intro f; rfl
  | cons r rest ih =>
    intro f
    simp only [List.map_cons, List.mem_cons, not_or] at hu
    rw [List.foldl_cons, ih hu.2]
    exact Function.update_noteq hu.1 _ _

/-- Under distinct usernames, the PR dict built by `find_available_reviewer`
holds exactly the queried PRs of each configured reviewer. -/
theorem buildReviewerPRs_eq (query : String → List PRInfo) (rs : List Reviewer)
    (hnd : (rs.map Reviewer.username).Nodup) (u : String)
    (hu : u ∈ rs.map Reviewer.username) :
    ∀ f : String → List PRInfo, f u = [] →
      (rs.foldl
        (fun (acc : String → List PRInfo) (r : Reviewer) =>
          Function.update acc r.username (acc r.username ++ query r.username))
        f) u = query u := by
  induction rs with
  | nil => simp at hu
  | cons r rest ih =>
    intro f hf
    rw [List.map_cons, List.nodup_cons] at hnd
    rw [List.foldl_cons]
    by_cases h : u = r.username
    · subst h
      rw [buildReviewerPRs_foldl_not_mem query rest _ hnd.1, Function.update_same, hf,
        List.nil_append]
    · have hu' : u ∈ rest.map Reviewer.username := by
        rw [List.map_cons, List.mem_cons] at hu
        exact hu.resolve_left h
      exact ih hnd.2 hu' _ (by rw [Function.update_noteq h]; exact hf)

/-- The selection fold appends one status entry per reviewer, in
configuration order, and selects the first reviewer with capacity once the
accumulator holds no selection. -/
theorem selectStep_foldl_spec (prMap : String → List PRInfo) (rs : List Reviewer) :
    ∀ acc : Option String × List ReviewerStatusEntry,
      (rs.foldl (selectStep prMap) acc).2 = acc.2 ++ rs.map (entryOf prMap) ∧
      (rs.foldl (selectStep prMap) acc).1 =
        (match acc.1 with
         | some u => some u
         | none =>
           (rs.find? fun r =>
             decide ((prMap r.username).length < r.max_open_prs)).map Reviewer.username) := by
  induction rs with
  | nil =>
    intro acc
    obtain ⟨sel, ents⟩ := acc
    constructor
    · simp
    · cases sel <;> simp
  | cons r rest ih =>
    intro acc
    rw [List.foldl_cons]
    obtain ⟨ih1, ih2⟩ := ih (selectStep prMap acc r)
    refine ⟨?_, ?_⟩
    · rw [ih1]
      simp [selectStep]
    · rw [ih2]
      cases hacc : acc.1 with
      | some u => simp [selectStep, hacc]
      | none =>
        by_cases hc : (prMap r.username).length < r.max_open_prs
        · have hfind : (r :: rest).find?
              (fun x => decide ((prMap x.username).length < x.max_open_prs)) = some r :=
            List.find?_cons_of_pos _ (by simp [hc])
          simp [selectStep, hacc, hc, hfind]
        · have hfind : (r :: rest).find?
              (fun x => decide ((prMap x.username).length < x.max_open_prs)) =
                rest.find? (fun x => decide ((prMap x.username).length < x.max_open_prs)) :=
            List.find?_cons_of_neg _ (by simp [hc])
          simp [selectStep, hacc, hc, hfind]

/-- Predicates agreeing on a list find the same first match. -/
theorem find_congr {p q : α → Bool} (l : List α) (h : ∀ a ∈ l, p a = q a) :
    l.find? p = l.find? q := by
  induction l with
  | nil => rfl
  | cons a t ih =>
    by_cases ha : p a
    · rw [List.find?_cons_of_pos _ ha, List.find?_cons_of_pos _ (h a (by simp) ▸ ha)]
    · rw [List.find?_cons_of_neg _ (by simpa using ha),
        List.find?_cons_of_neg _ (by rw [← h a (by simp)]; simpa using ha),
        ih fun b hb => h b (by simp [hb])]

/-- C5: for a configuration with distinct usernames and any open-PR snapshot
(`query` gives each reviewer's open PRs for the project),
`find_available_reviewer` selects the first reviewer in configuration order
whose open-PR count is strictly below their maximum, reports every configured
reviewer's count, capacity and selection state in order, and when no reviewer
has capacity returns no selection with `all_at_capacity` set — a total
function, so no exception is raised. -/
theorem C5_find_available_reviewer_first_fit (config : ProjectConfiguration)
    (query : String → List PRInfo)
    (hnd : (config.reviewers.map Reviewer.username).Nodup) :
    (ReviewerService.find_available_reviewer config query).2.reviewers_status =
      config.reviewers.map (fun r =>
        ⟨r.username, r.max_open_prs, (query r.username).length,
         decide ((query r.username).length < r.max_open_prs)⟩) ∧
    (ReviewerService.find_available_reviewer config query).1 =
      (config.reviewers.find? fun r =>
        decide ((query r.username).length < r.max_open_prs)).map Reviewer.username ∧
    (ReviewerService.find_available_reviewer config query).2.selected_reviewer =
      (ReviewerService.find_available_reviewer config query).1 ∧
    (ReviewerService.find_available_reviewer config query).2.all_at_capacity =
      ((ReviewerService.find_available_reviewer config query).1).isNone ∧
    ((∀ r ∈ config.reviewers, r.max_open_prs ≤ (query r.username).length) →
      (ReviewerService.find_available_reviewer config query).1 = none ∧
      (ReviewerService.find_available_reviewer config query).2.all_at_capacity = true) := by
  have hpr : ∀ r ∈ config.reviewers,
      buildReviewerPRs config.reviewers query r.username = query r.username := by
    intro r hr
    exact buildReviewerPRs_eq query config.reviewers hnd r.username
      (List.mem_map_of_mem _ hr) _ rfl
  obtain ⟨h2, h1⟩ :=
    selectStep_foldl_spec (buildReviewerPRs config.reviewers query)
      config.reviewers (none, [])
  have hsel : (ReviewerService.find_available_reviewer config query).1 =
      (config.reviewers.find? fun r =>
        decide ((query r.username).length < r.max_open_prs)).map Reviewer.username := by
    rw [ReviewerService.find_available_reviewer]
    simp only [h1]
    rw [find_congr config.reviewers fun r hr => by rw [hpr r hr]]
  refine ⟨?_, hsel, rfl, rfl, ?_⟩
  · rw [ReviewerService.find_available_reviewer]
    simp only [h2, List.nil_append]
    exact List.map_congr_left fun r hr => by simp [entryOf, hpr r hr]
  · intro hcap
    have : (config.reviewers.find? fun r =>
        decide ((query r.username).length < r.max_open_prs)) = none :=
      List.find?_eq_none.mpr fun r hr => by simpa using Nat.not_lt.mpr (hcap r hr)
    have hnone : (ReviewerService.find_available_reviewer config query).1 = none := by
      rw [hsel, this]; rfl
    refine ⟨hnone, ?_⟩
    rw [show (ReviewerService.find_available_reviewer config query).2.all_at_capacity =
      ((ReviewerService.find_available_reviewer config query).1).isNone from rfl, hnone]
    rfl

/-- Witness for C5, the spec's end-to-end scenarios: with reviewers
`[alice (max 2), bob (max 1)]`, alice holding two open PRs and bob none, bob
is selected and the report shows alice without capacity and bob with
capacity; with bob also at capacity, no reviewer is selected and
`all_at_capacity` is set. -/
theorem C5_find_available_reviewer_first_fit_witness :
    (ReviewerService.find_available_reviewer
      ⟨[⟨"alice", 2⟩, ⟨"bob", 1⟩]⟩
      (fun u => if u = "alice" then [⟨101, some 1, "T1"⟩, ⟨102, some 2, "T2"⟩] else [])).1 =
      some "bob" ∧
    (ReviewerService.find_available_reviewer
      ⟨[⟨"alice", 2⟩, ⟨"bob", 1⟩]⟩
      (fun u => if u = "alice" then [⟨101, some 1, "T1"⟩, ⟨102, some 2, "T2"⟩] else [])).2.reviewers_status =
      [⟨"alice", 2, 2, false⟩, ⟨"bob", 1, 0, true⟩] ∧
    (ReviewerService.find_available_reviewer
      ⟨[⟨"alice", 2⟩, ⟨"bob", 1⟩]⟩
      (fun u => if u = "alice" then [⟨101, some 1, "T1"⟩, ⟨102, some 2, "T2"⟩]
        else [⟨103, some 3, "T3"⟩])).1 = none ∧
    (ReviewerService.find_available_reviewer
      ⟨[⟨"alice", 2⟩, ⟨"bob", 1⟩]⟩
      (fun u => if u = "alice" then [⟨101, some 1, "T1"⟩, ⟨102, some 2, "T2"⟩]
        else [⟨103, some 3, "T3"⟩])).2.all_at_capacity = true := by
  have hA := C5_find_available_reviewer_first_fit
    ⟨[⟨"alice", 2⟩, ⟨"bob", 1⟩]⟩
    (fun u => if u = "alice" then [⟨101, some 1, "T1"⟩, ⟨102, some 2, "T2"⟩] else [])
    (by decide)
  have hB := C5_find_available_reviewer_first_fit
    ⟨[⟨"alice", 2⟩, ⟨"bob", 1⟩]⟩
    (fun u => if u = "alice" then [⟨101, some 1, "T1"⟩, ⟨102, some 2, "T2"⟩]
      else [⟨103, some 3, "T3"⟩])
    (by decide)
  have hBcap := hB.2.2.2.2 (by decide)
  refine ⟨?_, ?_, hBcap.1, hBcap.2⟩
  · rw [hA.2.1]; decide
  · rw [hA.1]; decide

/-! ## Task status derivation (C2) -/

/-- The running best of the latest-PR fold is the seed or a list element. -/
theorem foldl_latest_mem (ps : List MPullRequest) :
    ∀ p : MPullRequest,
      (ps.foldl (fun best q => if best.created_at < q.created_at then q else best) p) ∈
        p :: ps := by
  induction ps with
  | nil => intro p; simp
  | cons q rest ih =>
    intro p
    rw [List.foldl_cons]
    rcases List.mem_cons.mp (ih (if p.created_at < q.created_at then q else p)) with h | h
    · by_cases hlt : p.created_at < q.created_at
      · rw [h, if_pos hlt]; simp
      · rw [h, if_neg hlt]; simp
    · simp [h]

/-- The latest-PR fold dominates the seed and every list element in
`created_at`. -/
theorem foldl_latest_ge (ps : List MPullRequest) :
    ∀ p : MPullRequest,
      p.created_at ≤
        (ps.foldl (fun best q => if best.created_at < q.created_at then q else best)
          p).created_at ∧
      ∀ q ∈ ps,
        q.created_at ≤
          (ps.foldl (fun best q => if best.created_at < q.created_at then q else best)
            p).created_at := by
  induction ps with
  | nil => intro p; simp
  | cons q rest ih =>
    intro p
    rw [List.foldl_cons]
    obtain ⟨ih1, ih2⟩ := ih (if p.created_at < q.created_at then q else p)
    have hp : p.created_at ≤ (if p.created_at < q.created_at then q else p).created_at := by
      by_cases hlt : p.created_at < q.created_at
      · rw [if_pos hlt]; exact Nat.le_of_lt hlt
      · rw [if_neg hlt]
    have hq : q.created_at ≤ (if p.created_at < q.created_at then q else p).created_at := by
      by_cases hlt : p.created_at < q.created_at
      · rw [if_pos hlt]
      · rw [if_neg hlt]; exact Nat.le_of_not_lt hlt
    refine ⟨le_trans hp ih1, fun x hx => ?_⟩
    rcases List.mem_cons.mp hx with h | h
    · subst h; exact le_trans hq ih1
    · exact ih2 x h

/-- A pull request returned by `latestPR` belongs to the list and carries its
maximal creation instant. -/
theorem latestPR_spec (prs : List MPullRequest) (p : MPullRequest)
    (h : latestPR prs = some p) :
    p ∈ prs ∧ ∀ q ∈ prs, q.created_at ≤ p.created_at := by
  cases prs with
  | nil => simp [latestPR] at h
  | cons p0 rest =>
    rw [latestPR, Option.some.injEq] at h
    subst h
    refine ⟨foldl_latest_mem rest p0, fun q hq => ?_⟩
    obtain ⟨h1, h2⟩ := foldl_latest_ge rest p0
    rcases List.mem_cons.mp hq with h3 | h3
    · exact h3 ▸ h1
    · exact h2 q h3

/-- C2: `sync_task_statuses` keeps each task's index and description and sets
its status from the most recently created pull request whose `task_index`
equals the task's index (maximal `created_at`, independent of pull-request
number): no such pull request means `pending`, an open one `in_progress`, a
merged one `completed`, and a closed-but-unmerged one `in_progress`. -/
theorem C2_sync_task_statuses_latest (m : HybridProjectMetadata) (i : Nat)
    (hi : i < m.tasks.length) :
    (((m.sync_task_statuses).tasks.getD i ⟨0, "", .pending⟩).index =
      (m.tasks.getD i ⟨0, "", .pending⟩).index ∧
     ((m.sync_task_statuses).tasks.getD i ⟨0, "", .pending⟩).description =
      (m.tasks.getD i ⟨0, "", .pending⟩).description) ∧
    (m.pull_requests.filter
        (fun p => p.task_index == (m.tasks.getD i ⟨0, "", .pending⟩).index) = [] →
      ((m.sync_task_statuses).tasks.getD i ⟨0, "", .pending⟩).status =
        TaskStatus.pending) ∧
    ∀ p, latestPR (m.pull_requests.filter
        (fun p => p.task_index == (m.tasks.getD i ⟨0, "", .pending⟩).index)) = some p →
      (p ∈ m.pull_requests.filter
          (fun p => p.task_index == (m.tasks.getD i ⟨0, "", .pending⟩).index) ∧
       ∀ q ∈ m.pull_requests.filter
          (fun p => p.task_index == (m.tasks.getD i ⟨0, "", .pending⟩).index),
         q.created_at ≤ p.created_at) ∧
      (p.pr_state = "open" →
        ((m.sync_task_statuses).tasks.getD i ⟨0, "", .pending⟩).status =
          TaskStatus.in_progress) ∧
      (p.pr_state = "merged" →
        ((m.sync_task_statuses).tasks.getD i ⟨0, "", .pending⟩).status =
          TaskStatus.completed) ∧
      (p.pr_state = "closed" →
        ((m.sync_task_statuses).tasks.getD i ⟨0, "", .pending⟩).status =
          TaskStatus.in_progress) := by
  have hmap : (m.sync_task_statuses).tasks.getD i ⟨0, "", .pending⟩ =
      deriveTaskStatus m.pull_requests (m.tasks.getD i ⟨0, "", .pending⟩) := by
    rw [HybridProjectMetadata.sync_task_statuses]
    rw [List.getD_eq_getElem?_getD, List.getD_eq_getElem?_getD, List.getElem?_map,
      List.getElem?_eq_getElem hi]
    rfl
  rw [hmap]
  rw [deriveTaskStatus]
  cases hlat : latestPR (m.pull_requests.filter
      (fun p => p.task_index == (m.tasks.getD i ⟨0, "", .pending⟩).index)) with
  | none =>
    refine ⟨⟨rfl, rfl⟩, fun _ => rfl, fun p hp => ?_⟩
    exact absurd hp (by simp)
  | some p =>
    refine ⟨⟨rfl, rfl⟩, ?_, ?_⟩
    · intro hempty
      rw [hempty] at hlat
      exact absurd hlat (by simp [latestPR])
    · intro p' hp'
      rw [Option.some.injEq] at hp'
      subst hp'
      refine ⟨latestPR_spec _ _ hlat, ?_, ?_, ?_⟩
      · intro hst; simp [statusForState, hst]
      · intro hst; simp [statusForState, hst]
      · intro hst; simp [statusForState, hst]

/-- Witness for C2: a task with an older closed pull request (number 99) and
a newer merged one (number 45) derives to `completed` — the newest pull
request by creation instant wins, not the highest-numbered or worst-state
one. -/
theorem C2_sync_task_statuses_latest_witness :
    ((HybridProjectMetadata.mk "2.0" "demo" 20
      [⟨1, "Task 1", .pending⟩]
      [⟨1, 99, "b1", "alice", "closed", 10, none, []⟩,
       ⟨1, 45, "b2", "bob", "merged", 20, none, []⟩]).sync_task_statuses.tasks.getD 0
        ⟨0, "", .pending⟩).status = TaskStatus.completed := by
  have h := C2_sync_task_statuses_latest
    (HybridProjectMetadata.mk "2.0" "demo" 20
      [⟨1, "Task 1", .pending⟩]
      [⟨1, 99, "b1", "alice", "closed", 10, none, []⟩,
       ⟨1, 45, "b2", "bob", "merged", 20, none, []⟩]) 0 (by decide)
  exact ((h.2.2 ⟨1, 45, "b2", "bob", "merged", 20, none, []⟩ (by decide)).2.2.1) rfl

/-! ## Metadata store conflict retry (C1) -/

/-- Every run of the write loop either writes the caller's document verbatim
or fails with a conflict error. -/
theorem write_attempts_shape (env : Nat → Option (String × Nat)) (c : String) :
    ∀ (fuel k : Nat) (tok : Option Nat),
      GitHubMetadataStore.write_file_attempts env c k tok fuel = .written c ∨
      GitHubMetadataStore.write_file_attempts env c k tok fuel = .conflictError := by
  intro fuel
  induction fuel with
  | zero => intro k tok; right; rfl
  | succ fuel ih =>
    intro k tok
    rw [GitHubMetadataStore.write_file_attempts]
    by_cases h : putOk (env k) tok
    · rw [if_pos h]; left; rfl
    · rw [if_neg h]; exact ih _ _

/-- Starting the loop one attempt later is running it against the shifted
adversary schedule. -/
theorem write_attempts_shift (env : Nat → Option (String × Nat)) (c : String) :
    ∀ (fuel k : Nat) (tok : Option Nat),
      GitHubMetadataStore.write_file_attempts env c (k + 1) tok fuel =
        GitHubMetadataStore.write_file_attempts (fun j => env (j + 1)) c k tok fuel := by
  intro fuel
  induction fuel with
  | zero => intro k tok; rfl
  | succ fuel ih =>
    intro k tok
    rw [GitHubMetadataStore.write_file_attempts, GitHubMetadataStore.write_file_attempts]
    by_cases h : putOk (env (k + 1)) tok
    · rw [if_pos h, if_pos h]
    · rw [if_neg h, if_neg h]
      exact ih _ _

/-- The token sequence against the shifted schedule is the tail of the token
sequence against the original one. -/
theorem tokSeq_shift (env : Nat → Option (String × Nat)) (tok : Option Nat) :
    ∀ j, tokSeq (fun i => env (i + 1)) ((env 0).map Prod.snd) j =
      tokSeq env tok (j + 1) := by
  intro j
  cases j <;> rfl

/-- The write loop succeeds exactly when some attempt's conditional `PUT`
goes through, each retry carrying the token re-read after the previous
conflict. -/
theorem write_attempts_written_iff (c : String) :
    ∀ (fuel : Nat) (env : Nat → Option (String × Nat)) (tok : Option Nat),
      GitHubMetadataStore.write_file_attempts env c 0 tok fuel = .written c ↔
        ∃ j < fuel, putOk (env j) (tokSeq env tok j) = true := by
  intro fuel
  induction fuel with
  | zero =>
    intro env tok
    simp [GitHubMetadataStore.write_file_attempts]
  | succ fuel ih =>
    intro env tok
    rw [GitHubMetadataStore.write_file_attempts]
    by_cases h0 : putOk (env 0) tok
    · rw [if_pos h0]
      constructor
      · intro _; exact ⟨0, Nat.succ_pos _, h0⟩
      · intro _; rfl
    · rw [if_neg h0, write_attempts_shift, ih]
      constructor
      · rintro ⟨j, hj, hput⟩
        rw [tokSeq_shift env tok] at hput
        exact ⟨j + 1, by omega, hput⟩
      · rintro ⟨j, hj, hput⟩
        cases j with
        | zero => exact absurd hput (by simp [h0, tokSeq])
        | succ j' =>
          refine ⟨j', by omega, ?_⟩
          rw [tokSeq_shift env tok]
          exact hput

/-- C1 (amended): a write that hits a version-conflict error re-reads the
file to obtain the current version token and retries the write of the
caller's originally supplied document with that fresh token, up to
`max_retries` further attempts; each attempt `j ≥ 1` carries `tokSeq env tok
j`, the token of the remote state observed at the previous attempt.  The
write either stores the caller's document verbatim or, when every attempt
conflicts, fails with a conflict error — the store never recomputes the
document. -/
theorem C1_write_conflict_retry (env : Nat → Option (String × Nat))
    (content : String) (tok : Option Nat) (max_retries : Nat) :
    (GitHubMetadataStore.write_file env content tok max_retries = .written content ∨
     GitHubMetadataStore.write_file env content tok max_retries = .conflictError) ∧
    (GitHubMetadataStore.write_file env content tok max_retries = .written content ↔
      ∃ j < max_retries + 1, putOk (env j) (tokSeq env tok j) = true) ∧
    (GitHubMetadataStore.write_file env content tok max_retries = .conflictError ↔
      ∀ j < max_retries + 1, putOk (env j) (tokSeq env tok j) = false) := by
  have hshape := write_attempts_shape env content (max_retries + 1) 0 tok
  have hwr := write_attempts_written_iff content (max_retries + 1) env tok
  refine ⟨hshape, hwr, ?_⟩
  constructor
  · intro hconf j hj
    by_contra hput
    have : GitHubMetadataStore.write_file env content tok max_retries = .written content :=
      hwr.mpr ⟨j, hj, by simpa using hput⟩
    rw [this] at hconf
    exact absurd hconf (by simp)
  · intro hall
    rcases hshape with h | h
    · obtain ⟨j, hj, hput⟩ := hwr.mp h
      rw [hall j hj] at hput
      exact absurd hput (by simp)
    · exact h

/-- Witness for C1: against a remote that holds revision 7 throughout, a
write carrying stale token 3 conflicts once, re-reads token 7 and succeeds on
the retry, storing the caller's document. -/
theorem C1_write_conflict_retry_witness :
    GitHubMetadataStore.write_file (fun _ => some ("remote document", 7))
      "caller document" (some 3) 3 = .written "caller document" := by
  exact (C1_write_conflict_retry (fun _ => some ("remote document", 7))
    "caller document" (some 3) 3).2.1.mpr ⟨1, by omega, by decide⟩

/-- Counterexample to C1 as stated: the claim reads that the retried write
applies a caller-supplied recompute step to the freshly-read document rather
than re-submitting the original document.  The store's `_write_file` takes
only the document (no recompute callback exists in its API), and on the
retry after a conflict it stores the caller's original document: here the
code model stores "caller document" while the claimed recompute behaviour
would store "remote document merged" — the two runs differ, so the write is
a re-submission of the original document, not a recomputation from the
freshly-read one. -/
theorem C1_write_conflict_retry_counterexample :
    GitHubMetadataStore.write_file (fun _ => some ("remote document", 7))
      "caller document" (some 3) 3 = .written "caller document" ∧
    GitHubMetadataStore.write_file_recompute (fun _ => some ("remote document", 7))
      (fun fresh => fresh ++ " merged") "caller document" (some 3) 3 =
      .written "remote document merged" ∧
    "caller document" ≠ "remote document merged" := by
  refine ⟨rfl, rfl, by decide⟩

/-! ## Task-hash normalization and format (C8) -/

/-- Any sufficient fuel computes the same split. -/
theorem pySplitF_fuel :
    ∀ (fuel : Nat) (l : List Char), l.length ≤ fuel →
      pySplitF fuel l = pySplitF l.length l := by
  intro fuel
  induction fuel using Nat.strong_induction_on with
  | _ fuel ih =>
    intro l hl
    match fuel with
    | 0 =>
      have : l.length = 0 := Nat.le_zero.mp hl
      rw [this]
    | f + 1 =>
      cases hd : l.dropWhile pyIsSpace with
      | nil =>
        rw [pySplitF]
        cases hn : l.length with
        | zero => rw [pySplitF, hd]
        | succ n => rw [pySplitF, hd]
      | cons c cs =>
        have hne : l ≠ [] := by
          intro h
          rw [h] at hd
          simp at hd
        obtain ⟨n, hn⟩ : ∃ n, l.length = n + 1 :=
          ⟨l.length - 1, by
            have := List.length_pos.mpr hne
            omega⟩
        have hlen : (c :: cs).length ≤ l.length := by
          rw [← hd]
          exact length_dropWhile_le _ _
        have hrest : (cs.dropWhile (fun x => !pyIsSpace x)).length ≤ cs.length :=
          length_dropWhile_le _ _
        rw [hn]
        simp only [pySplitF, hd]
        have h1 : pySplitF f (cs.dropWhile (fun x => !pyIsSpace x)) =
            pySplitF (cs.dropWhile (fun x => !pyIsSpace x)).length
              (cs.dropWhile (fun x => !pyIsSpace x)) := by
          apply ih f (by omega)
          simp at hlen
          omega
        have h2 : pySplitF n (cs.dropWhile (fun x => !pyIsSpace x)) =
            pySplitF (cs.dropWhile (fun x => !pyIsSpace x)).length
              (cs.dropWhile (fun x => !pyIsSpace x)) := by
          apply ih n (by omega)
          simp at hlen
          omega
        rw [h1, h2]

/-- Unfolding `pySplit` on an all-whitespace list. -/
theorem pySplit_eq_nil {l : List Char} (h : l.dropWhile pyIsSpace = []) :
    pySplit l = [] := by
  rw [pySplit]
  cases hn : l.length with
  | zero => rw [pySplitF]
  | succ n => rw [pySplitF, h]

/-- Unfolding `pySplit` when a word starts: the first word is the
non-whitespace run, and the scan continues past it. -/
theorem pySplit_eq_cons {l : List Char} {c : Char} {cs : List Char}
    (h : l.dropWhile pyIsSpace = c :: cs) :
    pySplit l = (c :: cs.takeWhile (fun x => !pyIsSpace x)) ::
      pySplit (cs.dropWhile (fun x => !pyIsSpace x)) := by
  have hne : l ≠ [] := by
    intro hl
    rw [hl] at h
    simp at h
  obtain ⟨n, hn⟩ : ∃ n, l.length = n + 1 :=
    ⟨l.length - 1, by
      have := List.length_pos.mpr hne
      omega⟩
  have hlen : (c :: cs).length ≤ l.length := by
    rw [← h]
    exact length_dropWhile_le _ _
  have hrest : (cs.dropWhile (fun x => !pyIsSpace x)).length ≤ cs.length :=
    length_dropWhile_le _ _
  rw [pySplit, hn]
  simp only [pySplitF, h]
  rw [pySplit]
  rw [pySplitF_fuel n _ (by simp at hlen; omega)]

/-- Every word of a split is nonempty and whitespace-free. -/
theorem pySplit_sound_aux :
    ∀ (n : Nat) (l : List Char), l.length ≤ n →
      ∀ w ∈ pySplit l, w ≠ [] ∧ ∀ c ∈ w, pyIsSpace c = false := by
  intro n
  induction n with
  | zero =>
    intro l hl w hw
    have : l = [] := List.length_eq_zero.mp (Nat.le_zero.mp hl)
    subst this
    rw [pySplit_eq_nil (by simp)] at hw
    simp at hw
  | succ n ih =>
    intro l hl w hw
    cases hd : l.dropWhile pyIsSpace with
    | nil =>
      rw [pySplit_eq_nil hd] at hw
      simp at hw
    | cons c cs =>
      rw [pySplit_eq_cons hd] at hw
      rcases List.mem_cons.mp hw with h | h
      · subst h
        refine ⟨by simp, fun x hx => ?_⟩
        rcases List.mem_cons.mp hx with h1 | h1
        · subst h1
          exact head_dropWhile_false pyIsSpace l hd
        · simpa using List.mem_takeWhile_imp h1
      · have hlen : (c :: cs).length ≤ l.length := by
          rw [← hd]
          exact length_dropWhile_le _ _
        have hrest : (cs.dropWhile (fun x => !pyIsSpace x)).length ≤ cs.length :=
          length_dropWhile_le _ _
        apply ih (cs.dropWhile (fun x => !pyIsSpace x)) ?_ w h
        simp at hlen
        omega

/-- Every word of a split is nonempty and whitespace-free. -/
theorem pySplit_sound (l : List Char) :
    ∀ w ∈ pySplit l, w ≠ [] ∧ ∀ c ∈ w, pyIsSpace c = false :=
  pySplit_sound_aux l.length l le_rfl

/-- A leading whitespace character does not change the split. -/
theorem pySplit_cons_space {c : Char} (hc : pyIsSpace c = true) (l : List Char) :
    pySplit (c :: l) = pySplit l := by
  have hdrop : (c :: l).dropWhile pyIsSpace = l.dropWhile pyIsSpace := by
    simp [List.dropWhile_cons, hc]
  cases hd : l.dropWhile pyIsSpace with
  | nil => rw [pySplit_eq_nil (hdrop.trans hd), pySplit_eq_nil hd]
  | cons x xs => rw [pySplit_eq_cons (hdrop.trans hd), pySplit_eq_cons hd]

/-- Splitting a space-joined list of nonempty whitespace-free words recovers
the words: `split` is a left inverse of `" ".join` on normal forms. -/
theorem pySplit_joinWords :
    ∀ (ws : List (List Char)), (∀ w ∈ ws, w ≠ []) →
      (∀ w ∈ ws, ∀ c ∈ w, pyIsSpace c = false) →
      pySplit (joinWords ws) = ws := by
  intro ws
  induction ws with
  | nil =>
    intro _ _
    exact pySplit_eq_nil (by simp [joinWords])
  | cons w rest ih =>
    intro h1 h2
    cases hw : w with
    | nil => exact absurd hw (h1 w (by simp))
    | cons c w' =>
      have hc : pyIsSpace c = false := h2 w (by simp) c (by simp [hw])
      have hw' : ∀ x ∈ w', pyIsSpace x = false := fun x hx =>
        h2 w (by simp) x (by simp [hw, hx])
      have hw'q : ∀ x ∈ w', (fun x => !pyIsSpace x) x = true := fun x hx => by
        simp [hw' x hx]
      cases rest with
      | nil =>
        have hdrop : (c :: w').dropWhile pyIsSpace = c :: w' := by
          simp [List.dropWhile_cons, hc]
        have hjw : joinWords [c :: w'] = c :: w' := rfl
        rw [hjw, pySplit_eq_cons hdrop]
        have ht : w'.takeWhile (fun x => !pyIsSpace x) = w' := by
          have := takeWhile_append_all (fun x => !pyIsSpace x) w' [] hw'q
          simpa using this
        have hd : w'.dropWhile (fun x => !pyIsSpace x) = [] := by
          have := dropWhile_append_all (fun x => !pyIsSpace x) w' [] hw'q
          simpa using this
        rw [ht, hd, pySplit_eq_nil (by simp)]
      | cons w₂ rest₂ =>
        have hjoin : joinWords ((c :: w') :: w₂ :: rest₂) =
            c :: (w' ++ ' ' :: joinWords (w₂ :: rest₂)) := rfl
        have hdrop : (c :: (w' ++ ' ' :: joinWords (w₂ :: rest₂))).dropWhile pyIsSpace =
            c :: (w' ++ ' ' :: joinWords (w₂ :: rest₂)) := by
          simp [List.dropWhile_cons, hc]
        rw [hjoin, pySplit_eq_cons hdrop]
        have ht : (w' ++ ' ' :: joinWords (w₂ :: rest₂)).takeWhile
            (fun x => !pyIsSpace x) = w' := by
          rw [takeWhile_append_all _ _ _ hw'q]
          simp [List.takeWhile_cons, pyIsSpace]
        have hd : (w' ++ ' ' :: joinWords (w₂ :: rest₂)).dropWhile
            (fun x => !pyIsSpace x) = ' ' :: joinWords (w₂ :: rest₂) := by
          rw [dropWhile_append_all _ _ _ hw'q]
          simp [List.dropWhile_cons, pyIsSpace]
        rw [ht, hd, pySplit_cons_space (by simp [pyIsSpace])]
        rw [ih (fun x hx => h1 x (by simp [hx])) (fun x hx => h2 x (by simp [hx]))]

/-- Normalization is idempotent: trimming and collapsing whitespace a second
time changes nothing. -/
theorem normalize_idem (s : String) : normalize (normalize s) = normalize s := by
  show String.mk (joinWords (pySplit (joinWords (pySplit s.toList)))) =
    String.mk (joinWords (pySplit s.toList))
  rw [pySplit_joinWords (pySplit s.toList)
    (fun w hw => (pySplit_sound s.toList w hw).1)
    (fun w hw => (pySplit_sound s.toList w hw).2)]

/-- A hex digit character is drawn from the hex alphabet. -/
theorem hexChar_mem (n : Nat) : hexChar n ∈ hexDigits := by
  rw [hexChar]
  have h : n % 16 < hexDigits.length := by
    have : n % 16 < 16 := Nat.mod_lt _ (by omega)
    simpa [hexDigits] using this
  rw [List.getD_eq_getElem?_getD, List.getElem?_eq_getElem h]
  simpa using List.getElem_mem h

/-- Every character of a hex rendering is a lowercase hex digit. -/
theorem mem_hexOfBytes {c : Char} {bs : List Nat} (h : c ∈ hexOfBytes bs) :
    c ∈ hexDigits := by
  rw [hexOfBytes, List.mem_flatten] at h
  obtain ⟨l, hl, hc⟩ := h
  obtain ⟨b, -, rfl⟩ := List.mem_map.mp hl
  rcases (by simpa [byteHexChars] using hc : c = hexChar (b / 16) ∨ c = hexChar b) with
    h1 | h1 <;> exact h1 ▸ hexChar_mem _

/-- A hex rendering has two characters per byte. -/
theorem hexOfBytes_length (bs : List Nat) : (hexOfBytes bs).length = 2 * bs.length := by
  induction bs with
  | nil => rfl
  | cons b rest ih =>
    have hstep : hexOfBytes (b :: rest) = byteHexChars b ++ hexOfBytes rest := rfl
    rw [hstep, List.length_append, ih, List.length_cons]
    have hb : (byteHexChars b).length = 2 := rfl
    rw [hb]
    omega

/-- A SHA-256 digest has 32 bytes. -/
theorem sha256bytes_length (msg : List Nat) : (sha256bytes msg).length = 32 := by
  rw [sha256bytes]
  simp [wordBytes]

/-- C8: `generate_task_hash` factors through whitespace normalization —
`generate_task_hash d = generate_task_hash (normalize d)` — it is a
deterministic function of the normalized description (equal normal forms give
equal hashes), and its output is exactly 8 characters, all drawn from the
lowercase hexadecimal alphabet. -/
theorem C8_task_hash_normalization (d : String) :
    generate_task_hash d = generate_task_hash (normalize d) ∧
    (∀ d₂ : String, normalize d₂ = normalize d →
      generate_task_hash d₂ = generate_task_hash d) ∧
    (generate_task_hash d).length = 8 ∧
    ∀ c ∈ (generate_task_hash d).toList, c ∈ hexDigits := by
  refine ⟨?_, ?_, ?_, ?_⟩
  · rw [generate_task_hash, generate_task_hash, normalize_idem]
  · intro d₂ h
    rw [generate_task_hash, generate_task_hash, h]
  · show (List.take 8 (hexOfBytes (sha256bytes (utf8Bytes (normalize d))))).length = 8
    rw [List.length_take, hexOfBytes_length, sha256bytes_length]
    decide
  · intro c hc
    have hc' : c ∈ hexOfBytes (sha256bytes (utf8Bytes (normalize d))) :=
      List.mem_of_mem_take (by simpa [generate_task_hash] using hc)
    exact mem_hexOfBytes hc'

/-- Witness for C8: a description with leading, trailing and internal extra
whitespace hashes identically to its normalized form, and the hash has 8
characters. -/
theorem C8_task_hash_normalization_witness :
    generate_task_hash "Add user authentication" =
      generate_task_hash "  Add   user\t authentication  " ∧
    (generate_task_hash "  Add   user\t authentication  ").length = 8 := by
  have h := C8_task_hash_normalization "  Add   user\t authentication  "
  exact ⟨h.2.1 "Add user authentication" (by decide), h.2.2.1⟩

/-! ## Branch-name classification (C4) -/

/-- Splitting a branch of the form `pre-suf` with a dash-free suffix yields
exactly that suffix. -/
theorem lastDashSplitChars_append (pre suf : List Char)
    (hsuf : ∀ c ∈ suf, c ≠ '-') :
    lastDashSplitChars (pre ++ '-' :: suf) = some (pre, suf) := by
  have hq : ∀ c ∈ suf.reverse, (fun c => decide (c ≠ '-')) c = true := by
    intro c hc
    simp [hsuf c (List.mem_reverse.mp hc)]
  have hrev : (pre ++ '-' :: suf).reverse = suf.reverse ++ '-' :: pre.reverse := by
    simp
  rw [lastDashSplitChars, hrev]
  rw [dropWhile_append_all _ _ _ hq, takeWhile_append_all _ _ _ hq]
  simp [List.dropWhile_cons, List.takeWhile_cons]

/-- A nonempty all-hexadecimal suffix containing a non-decimal character is
rejected by Python `int`. -/
theorem pyIntOfChars_hex_none (suf : List Char) (h1 : suf ≠ [])
    (h2 : ∀ c ∈ suf, c ∈ hexDigits) (h3 : ∃ c ∈ suf, isAsciiDigit c = false) :
    pyIntOfChars suf = none := by
  cases suf with
  | nil => exact absurd rfl h1
  | cons c rest =>
    have hc := h2 c (by simp)
    have hnd : ∀ x ∈ hexDigits, x ≠ '-' := by decide
    have hnp : ∀ x ∈ hexDigits, x ≠ '+' := by decide
    have hcm : c ≠ '-' := hnd c hc
    have hcp : c ≠ '+' := hnp c hc
    rw [pyIntOfChars, if_neg hcm, if_neg hcp, if_neg]
    intro hall
    obtain ⟨x, hx, hxd⟩ := h3
    have := List.all_eq_true.mp hall x hx
    rw [hxd] at this
    exact absurd this (by simp)

/-- C4 (amended): an 8-hexadecimal-character task hash embedded after the
final dash of a branch name is classified as index-based by the legacy
classifier exactly when all eight characters happen to be decimal digits;
whenever the hash contains at least one non-decimal hex digit, the classifier
rejects it (returns no index).  The unambiguity claimed for every hash fails:
see the counterexample, where an all-digit hash parses as a task index. -/
theorem C4_branch_classification (pre suf : List Char) (h1 : suf ≠ [])
    (h2 : ∀ c ∈ suf, c ∈ hexDigits) (h3 : ∃ c ∈ suf, isAsciiDigit c = false) :
    legacyTaskIndexOfBranch (String.mk (pre ++ '-' :: suf)) = none := by
  have hnd : ∀ x ∈ hexDigits, x ≠ '-' := by decide
  have hsuf : ∀ c ∈ suf, c ≠ '-' := fun c hc => hnd c (h2 c hc)
  rw [legacyTaskIndexOfBranch]
  show (match lastDashSplitChars (pre ++ '-' :: suf) with
    | none => none
    | some (_, suf) => pyIntOfChars suf) = none
  rw [lastDashSplitChars_append pre suf hsuf]
  exact pyIntOfChars_hex_none suf h1 h2 h3

/-- Witness for the amended C4: a branch carrying the ordinary hash
`a3f2b891` (it contains the non-decimal digits `a`, `f`, `b`) is not
classified as index-based. -/
theorem C4_branch_classification_witness :
    legacyTaskIndexOfBranch "claude-step-myproj-a3f2b891" = none := by
  have h := C4_branch_classification "claude-step-myproj".toList "a3f2b891".toList
    (by decide) (by decide) (by decide)
  have hs : String.mk ("claude-step-myproj".toList ++ '-' :: "a3f2b891".toList) =
      "claude-step-myproj-a3f2b891" := by decide
  rw [hs] at h
  exact h

/-- Counterexample to C4 as stated: the task hash of the description
"Refactor module 10" is `92975437` — eight hexadecimal characters that are
all decimal digits — and the legacy classifier
(`get_in_progress_task_indices`, which runs `int` on the text after the
branch's final dash) classifies a branch embedding this hash as index-based
with task index 92975437.  A hash-based branch name is therefore not
syntactically distinguishable from an index-based one, and classification by
branch name is ambiguous. -/
theorem C4_branch_classification_counterexample :
    generate_task_hash "Refactor module 10" = "92975437" ∧
    isHexHashString "92975437" = true ∧
    legacyTaskIndexOfBranch "2025-12-myproj-92975437" = some 92975437 := by
  refine ⟨by decide, by decide, by decide⟩

end ClaudeStep
